import Mathlib

/-!
Shallow embedding of `src/data_tools/kinetics700/download.py` (Kinetics-700
bulk video downloader) and proofs about its behaviour.

Python strings are modelled as lists of characters (`Str`).  The string
primitives the script uses (`str.replace`, `str.split`, `str.endswith`,
`os.path.join`, `os.path.basename`) are defined below with Python's
semantics.  The external tools invoked by the script (`youtube-dl`,
`ffmpeg`) are subprocesses; their behaviour is modelled by an oracle record
(`WorkerEnv`), and the filesystem by an explicit state (`FS`) that the
translated functions thread through.
-/

set_option autoImplicit false

/-- Python strings, modelled as lists of characters. -/
abbrev Str := List Char

/-- Boolean test that `p` is a leading segment of `s`. -/
def isPfx : Str → Str → Bool
  | [], _ => true
  | _ :: _, [] => false
  | c :: p, d :: s => if c = d then isPfx p s else false

/-- Boolean test that `p` occurs contiguously somewhere inside `s`. -/
def occursIn (p : Str) : Str → Bool
  | [] => isPfx p []
  | c :: rest => isPfx p (c :: rest) || occursIn p rest

/-- Boolean test that `p` is a trailing segment of `s`; models Python
`s.endswith(p)`. -/
def isSfx (p : Str) : Str → Bool
  | [] => decide (p = [])
  | c :: rest => decide (p = c :: rest) || isSfx p rest

/-- Models `os.path.join(dir, name)` for a directory path written without a
trailing separator, the shape in which the script builds every path. -/
def joinP (a b : Str) : Str := a ++ '/' :: b

/-- Models `os.path.basename`: the segment after the last path separator. -/
def basenameL (p : Str) : Str :=
  p.foldl (fun acc c => if c = '/' then [] else acc ++ [c]) []

/-- Fuel-indexed core of Python `s.replace(p0 :: ps, '')`: scan left to
right, deleting each non-overlapping occurrence of the pattern.  The fuel
only certifies termination; with fuel at least `s.length` it never runs
out (the scan consumes at least one character per step). -/
def replaceDelAux (p0 : Char) (ps : Str) : Nat → Str → Str
  | _, [] => []
  | 0, s => s
  | fuel + 1, c :: rest =>
    if isPfx (p0 :: ps) (c :: rest) then replaceDelAux p0 ps fuel (rest.drop ps.length)
    else c :: replaceDelAux p0 ps fuel rest

/-- Python `s.replace(p0 :: ps, '')`: delete every occurrence of the
(nonempty) pattern, scanning left to right. -/
def replaceDel (p0 : Char) (ps : Str) (s : Str) : Str := replaceDelAux p0 ps s.length s

/-- Fuel-indexed core of Python `s.split(s0 :: ss)` for a nonempty
separator: scan left to right, cutting at each non-overlapping occurrence
of the separator.  `acc` holds the characters of the current chunk in
reverse. -/
def pySplitAux (s0 : Char) (ss : Str) : Nat → Str → Str → List Str
  | _, acc, [] => [acc.reverse]
  | 0, acc, l => [acc.reverse ++ l]
  | fuel + 1, acc, c :: rest =>
    if isPfx (s0 :: ss) (c :: rest) then acc.reverse :: pySplitAux s0 ss fuel [] (rest.drop ss.length)
    else pySplitAux s0 ss fuel (c :: acc) rest

/-- Python `s.split(s0 :: ss)` for a nonempty separator. -/
def pySplit (s0 : Char) (ss : Str) (l : Str) : List Str := pySplitAux s0 ss l.length [] l

/-- The `?v=` marker used by `collect_videos` to derive a video name. -/
def vMarker : Str := ['?', 'v', '=']

/-- Source line `video_name = url.split('?v=')[-1]` of `collect_videos`
(Python `[-1]` is the last element; the split of a string is never the
empty list, see `pySplitAux_ne_nil`). -/
def video_name_of (url : Str) : Str := (pySplit '?' ['v', '='] url).getLastD []

/-- Lookup in an insertion-ordered association list; models Python dict
access on the dicts built by the script (keys are unique by construction). -/
def lookupA {α : Type} : List (Str × α) → Str → Option α
  | [], _ => none
  | (k, v) :: rest, name => if k = name then some v else lookupA rest name

/-- One record of an annotation dataset file after the JSON glue: its `url`
field and the two integers `int(segment[0])`, `int(segment[1])`. -/
structure SrcRecord where
  url : Str
  seg0 : Int
  seg1 : Int

/-- Loop body of `collect_videos` over the concatenated records of all data
sources.  The accumulator is the merged dict `out_videos` (an
insertion-ordered association list) and the counter
`num_duplicated_videos`; a record whose derived video name is already
present only bumps the counter, otherwise the record is appended. -/
def collectAux : List (Str × Str × Int × Int) → List SrcRecord → Nat →
    List (Str × Str × Int × Int) × Nat
  | m, [], d => (m, d)
  | m, r :: rs, d =>
    if (lookupA m (video_name_of r.url)).isSome then collectAux m rs (d + 1)
    else collectAux (m ++ [(video_name_of r.url, r.url, r.seg0, r.seg1)]) rs d

/-- Source `collect_videos`: merge all records into `out_videos`, returning
the dict together with the reported duplicate count. -/
def collect_videos (rs : List SrcRecord) : List (Str × Str × Int × Int) × Nat :=
  collectAux [] rs 0

/-- Specification helper for C7: the first record of the list whose derived
video name is `name`. -/
def firstRecordWith (name : Str) : List SrcRecord → Option SrcRecord
  | [] => none
  | r :: rs => if video_name_of r.url = name then some r else firstRecordWith name rs

/-- Name recovery of `prepare_tasks`:
`video_name = basename(video_path).replace('.' + extension, '')`. -/
def recoverName (ext : Str) (p : Str) : Str := replaceDel '.' ext (basenameL p)

/-- Task-building loop of `prepare_tasks`: for each candidate path, recover
the video name and look it up in `video_sources`; a missing key (Python
`KeyError` on `video_sources[video_name]`) is an error. -/
def mkTasks (srcs : List (Str × Str × Int × Int)) (ext : Str) :
    List Str → Except Str (List (Str × Str × Int × Int))
  | [] => Except.ok []
  | p :: ps =>
    match lookupA srcs (recoverName ext p) with
    | none => Except.error (recoverName ext p)
    | some (url, s, e) => (mkTasks srcs ext ps).map (fun ts => (url, p, s, e) :: ts)

/-- Source `prepare_tasks`.  `listing` models `listdir(videos_dir)` and
`isfile` the `isfile` check; the Python set difference
`set(all_videos) - set(downloaded_videos)` (whose iteration order is
unspecified) is modelled membership-equivalently as duplicate-free
filtering. -/
def prepare_tasks (srcs : List (Str × Str × Int × Int)) (dir : Str) (listing : List Str)
    (isfile : Str → Bool) (ext : Str) : Except Str (List (Str × Str × Int × Int)) :=
  let downloaded := (listing.filter (fun f => isfile (joinP dir f) && isSfx ext f)).map
    (fun f => joinP dir f)
  let allVideos := srcs.map (fun s => joinP dir (s.1 ++ '.' :: ext))
  let candidates := allVideos.eraseDups.filter (fun p => decide (p ∉ downloaded))
  mkTasks srcs ext candidates

/-- Filesystem model: the sets of existing directory and file paths. -/
structure FS where
  dirs : List Str
  files : List Str

/-- One task tuple `(url, out_video_path, segment_start, segment_end)`. -/
abbrev TaskT := Str × Str × Int × Int

/-- One status triple `(url, status, message)` as built by
`_download_video`. -/
abbrev Res := Str × Bool × Str

/-- Oracle for the external tools during one `_download_video` call:
`fetchResult k` is the outcome of the `youtube-dl` subprocess on its
`k`-th invocation (`none` = exit 0, `some err` = `CalledProcessError`
with captured output `err`); `fetchedName` is the name of the scratch
file a successful fetch creates inside the workspace (the file the
`glob` call resolves); `transcodeResult` is the outcome of the `ffmpeg`
subprocess, and `outputCreated` says whether that run materialises the
output file. -/
structure WorkerEnv where
  fetchResult : Nat → Option Str
  fetchedName : Str
  transcodeResult : Option Str
  outputCreated : Bool

/-- Fuel-indexed form of the `while True` retry loop of `_download_video`:
`attempts` is the loop counter, and the result is the final error output
(`none` if some invocation succeeded) paired with the number of fetch
invocations performed.  The fuel only certifies termination; starting
from `attempts = 0` with fuel `maxAttempts ≥ 1` it never runs out,
because the loop returns when `attempts + 1 = maxAttempts`. -/
def fetchLoopF (fetch : Nat → Option Str) (maxAttempts : Nat) : Nat → Nat → Option Str × Nat
  | attempts, 0 => (none, attempts)
  | attempts, fuel + 1 =>
    match fetch attempts with
    | none => (none, attempts + 1)
    | some err =>
      if attempts + 1 = maxAttempts then (some err, attempts + 1)
      else fetchLoopF fetch maxAttempts (attempts + 1) fuel

/-- The complete retry loop of `_download_video`, started at attempt 0. -/
def fetchLoop (fetch : Nat → Option Str) (maxAttempts : Nat) : Option Str × Nat :=
  fetchLoopF fetch maxAttempts 0 maxAttempts

/-- The literal message `'Downloaded'`. -/
def downloadedMsg : Str := ['D', 'o', 'w', 'n', 'l', 'o', 'a', 'd', 'e', 'd']

/-- Observable trace of one `_download_video` call: the returned status
triple, the number of `youtube-dl` and `ffmpeg` invocations, the messages
printed through `_log` during the call, and the filesystem afterwards. -/
structure DLTrace where
  result : Res
  fetchCalls : Nat
  transcodeCalls : Nat
  logs : List Res
  fs : FS

/-- Filesystem effect of a successful fetch: the scratch file appears. -/
def fsAfterFetch (scratch : Str) (fs : FS) : FS := { fs with files := scratch :: fs.files }

/-- Filesystem effect of the `ffmpeg` run: the output file appears when the
run materialises it. -/
def fsAfterTranscode (env : WorkerEnv) (outFile : Str) (fs : FS) : FS :=
  if env.outputCreated then { fs with files := outFile :: fs.files } else fs

/-- Source `VideoDownloader._download_video`, with subprocess behaviour
supplied by `env`.  Mirrors the source: retry the fetch up to
`maxAttempts` times, returning the captured error output on exhaustion;
then resolve the scratch file inside the workspace (the `glob` call) and
run `ffmpeg` once, returning its error output on failure; on `ffmpeg`
success take `status = exists(output_filename)`, `remove` the scratch
file, `_log` the message tuple, and return it. -/
def downloadVideo (env : WorkerEnv) (maxAttempts : Nat) (tmpDir : Str) (url outFile : Str)
    (_segStart _segEnd : Int) (fs : FS) : DLTrace :=
  match fetchLoop env.fetchResult maxAttempts with
  | (some err, n) =>
    { result := (url, false, err), fetchCalls := n, transcodeCalls := 0, logs := [], fs := fs }
  | (none, n) =>
    let scratch := joinP tmpDir env.fetchedName
    let fs1 := fsAfterFetch scratch fs
    match env.transcodeResult with
    | some err =>
      { result := (url, false, err), fetchCalls := n, transcodeCalls := 1, logs := [], fs := fs1 }
    | none =>
      let fs2 := fsAfterTranscode env outFile fs1
      let status := decide (outFile ∈ fs2.files)
      let fs3 : FS := { fs2 with files := fs2.files.filter (fun q => decide (q ≠ scratch)) }
      { result := (url, status, downloadedMsg), fetchCalls := n, transcodeCalls := 1,
        logs := [(url, status, downloadedMsg)], fs := fs3 }

/-- Aggregate of one pool run: the collected status list, the final
filesystem, and the concatenated streaming log lines. -/
structure PoolOut where
  results : List Res
  fs : FS
  logs : List Res

/-- The task loop of `__call__`: run `_download_video` on each task in
order, threading the filesystem; `envs i` gives the subprocess behaviour
for the `i`-th task. -/
def runSeq (maxAttempts : Nat) (tmpDir : Str) (envs : Nat → WorkerEnv) :
    Nat → FS → List TaskT → PoolOut
  | _, fs, [] => { results := [], fs := fs, logs := [] }
  | idx, fs, (url, out, s, e) :: ts =>
    let tr := downloadVideo (envs idx) maxAttempts tmpDir url out s e fs
    let rest := runSeq maxAttempts tmpDir envs (idx + 1) tr.fs ts
    { results := tr.result :: rest.results, fs := rest.fs, logs := tr.logs ++ rest.logs }

/-- The `makedirs`-if-absent step of `__call__`. -/
def ensureDir (d : Str) (fs : FS) : FS :=
  if d ∈ fs.dirs then fs else { fs with dirs := d :: fs.dirs }

/-- `shutil.rmtree`: the directory disappears together with every path
beneath it. -/
def rmtreeFS (d : Str) (fs : FS) : FS :=
  { dirs := fs.dirs.filter (fun q => decide (q ≠ d)),
    files := fs.files.filter (fun q => !isPfx (d ++ ['/']) q) }

/-- Dispatch branch of `__call__`: `num_jobs == 1` runs the explicit
sequential loop; otherwise `joblib.Parallel` dispatches one
`_download_video` call per task and returns one result per task in input
order (interleaving of the workers' filesystem effects is not observable
by the properties proved here: each task's scratch file name is unique). -/
def runMode (numJobs maxAttempts : Nat) (tmpDir : Str) (envs : Nat → WorkerEnv) (fs : FS)
    (tasks : List TaskT) : PoolOut :=
  if numJobs = 1 then runSeq maxAttempts tmpDir envs 0 fs tasks
  else runSeq maxAttempts tmpDir envs 0 fs tasks

/-- Source `VideoDownloader.__call__` restricted to its normal-return
executions: empty task lists return immediately; otherwise create the
workspace if absent, run all tasks, and `rmtree` the workspace.  This is
the exception-free projection of the faithful `videoDownloaderCallX`
below (see `videoDownloaderCallX_agree`): it describes exactly the
executions in which every worker returns a status triple, which is where
the claims about returned values live. -/
def videoDownloaderCall (numJobs maxAttempts : Nat) (tmpDir : Str) (envs : Nat → WorkerEnv)
    (tasks : List TaskT) (fs : FS) : PoolOut :=
  if tasks.length = 0 then { results := [], fs := fs, logs := [] }
  else
    let out := runMode numJobs maxAttempts tmpDir envs (ensureDir tmpDir fs) tasks
    { results := out.results, fs := rmtreeFS tmpDir out.fs, logs := out.logs }

/-- Uncaught Python exceptions of `_download_video`: the worker catches
only `subprocess.CalledProcessError`, so an `IndexError` from the
`glob.glob(...)[0]` subscript when the glob matches nothing (which really
happens, e.g. when `tmp_dir` contains a dot: the glob prefix
`tmp_filename.split('.')[0]` is then truncated at the wrong dot), and an
`OSError` from `remove(tmp_filename)`, propagate out of the worker. -/
inductive PyExc where
  | indexError
  | osError

/-- Worker oracle extended with the outcomes deciding the uncaught
exception paths: whether the `glob` call after a successful fetch finds a
file, and whether the final `remove` succeeds. -/
structure WorkerEnvX where
  base : WorkerEnv
  globMatches : Bool
  removeOk : Bool

/-- Source `VideoDownloader._download_video` with its exception channel:
identical to `downloadVideo` on every normal-return path
(see `downloadVideoX_agree`), and raising — `Except.error`, carrying the
filesystem at raise time — where the source raises an uncaught exception:
`IndexError` at the `glob.glob(...)[0]` subscript when no file matches,
`OSError` at `remove(tmp_filename)`. -/
def downloadVideoX (envx : WorkerEnvX) (maxAttempts : Nat) (tmpDir url outFile : Str)
    (_segStart _segEnd : Int) (fs : FS) : Except (PyExc × FS) DLTrace :=
  match fetchLoop envx.base.fetchResult maxAttempts with
  | (some err, n) =>
    Except.ok { result := (url, false, err), fetchCalls := n, transcodeCalls := 0,
                logs := [], fs := fs }
  | (none, n) =>
    let scratch := joinP tmpDir envx.base.fetchedName
    let fs1 := fsAfterFetch scratch fs
    if envx.globMatches then
      match envx.base.transcodeResult with
      | some err =>
        Except.ok { result := (url, false, err), fetchCalls := n, transcodeCalls := 1,
                    logs := [], fs := fs1 }
      | none =>
        let fs2 := fsAfterTranscode envx.base outFile fs1
        let status := decide (outFile ∈ fs2.files)
        if envx.removeOk then
          Except.ok { result := (url, status, downloadedMsg), fetchCalls := n,
                      transcodeCalls := 1, logs := [(url, status, downloadedMsg)],
                      fs := { fs2 with
                        files := fs2.files.filter (fun q => decide (q ≠ scratch)) } }
        else Except.error (PyExc.osError, fs2)
    else Except.error (PyExc.indexError, fs1)

/-- Task loop of `__call__` under the exception channel: a raising worker
aborts the loop and the exception propagates to the caller. -/
def runSeqX (maxAttempts : Nat) (tmpDir : Str) (envsx : Nat → WorkerEnvX) :
    Nat → FS → List TaskT → Except (PyExc × FS) PoolOut
  | _, fs, [] => Except.ok { results := [], fs := fs, logs := [] }
  | idx, fs, (url, out, s, e) :: ts =>
    match downloadVideoX (envsx idx) maxAttempts tmpDir url out s e fs with
    | Except.error ef => Except.error ef
    | Except.ok tr =>
      match runSeqX maxAttempts tmpDir envsx (idx + 1) tr.fs ts with
      | Except.error ef => Except.error ef
      | Except.ok rest =>
        Except.ok { results := tr.result :: rest.results, fs := rest.fs,
                    logs := tr.logs ++ rest.logs }

/-- Dispatch branch of `__call__` under the exception channel; in the
`joblib.Parallel` branch a worker exception is re-raised in the caller,
so both branches propagate the first raising task's exception. -/
def runModeX (numJobs maxAttempts : Nat) (tmpDir : Str) (envsx : Nat → WorkerEnvX) (fs : FS)
    (tasks : List TaskT) : Except (PyExc × FS) PoolOut :=
  if numJobs = 1 then runSeqX maxAttempts tmpDir envsx 0 fs tasks
  else runSeqX maxAttempts tmpDir envsx 0 fs tasks

/-- Source `VideoDownloader.__call__` with the worker exception channel.
`rmtree(self.tmp_dir)` in the source is plain straight-line code after
the dispatch (no try/finally), so it runs only when every worker has
returned a status triple; a propagating worker exception leaves
`__call__` before that line and the workspace is not removed. -/
def videoDownloaderCallX (numJobs maxAttempts : Nat) (tmpDir : Str) (envsx : Nat → WorkerEnvX)
    (tasks : List TaskT) (fs : FS) : Except (PyExc × FS) PoolOut :=
  if tasks.length = 0 then Except.ok { results := [], fs := fs, logs := [] }
  else
    match runModeX numJobs maxAttempts tmpDir envsx (ensureDir tmpDir fs) tasks with
    | Except.error ef => Except.error ef
    | Except.ok out =>
      Except.ok { results := out.results, fs := rmtreeFS tmpDir out.fs,
                  logs := out.logs }

section StrLemmas

theorem isPfx_iff (p : Str) : ∀ s : Str, isPfx p s = true ↔ ∃ t, s = p ++ t := by
  induction p with
  | nil =>
      intro s
      simp [isPfx]
  | cons c p ih =>
      intro s
      cases s with
      | nil =>
          simp [isPfx]
      | cons d s' =>
          constructor
          · intro h
            by_cases hcd : c = d
            · rcases (ih s').mp (by simpa [isPfx, hcd] using h) with ⟨t, ht⟩
              exact ⟨t, by simp [hcd, ht]⟩
            · simp [isPfx, hcd] at h
          · rintro ⟨t, ht⟩
            rcases ht with ht
            have hd : d = c := by
              have := congrArg (fun l => List.head? l) ht
              simpa using this
            have hs : s' = p ++ t := by
              have := congrArg (fun l => List.tail l) ht
              simpa using this
            simp [isPfx, hd, (ih s').mpr ⟨t, hs⟩]

theorem isPfx_append (p t : Str) : isPfx p (p ++ t) = true :=
  (isPfx_iff p (p ++ t)).mpr ⟨t, rfl⟩

theorem isPfx_extend {p u : Str} (v : Str) (h : isPfx p u = true) :
    isPfx p (u ++ v) = true := by
  rcases (isPfx_iff p u).mp h with ⟨t, ht⟩
  exact (isPfx_iff p (u ++ v)).mpr ⟨t ++ v, by simp [ht]⟩

theorem occursIn_iff (p : Str) : ∀ s : Str, occursIn p s = true ↔ ∃ a b, s = a ++ p ++ b := by
  intro s
  induction s with
  | nil =>
      constructor
      · intro h
        rcases (isPfx_iff p []).mp (by simpa [occursIn] using h) with ⟨t, ht⟩
        exact ⟨[], t, by simpa using ht⟩
      · rintro ⟨a, b, hab⟩
        have hp : p = [] := by
          have := congrArg List.length hab
          simp at this
          exact List.length_eq_zero.mp (by omega)
        simp [occursIn, hp, isPfx]
  | cons c rest ih =>
      constructor
      · intro h
        rcases Bool.or_eq_true_iff.mp (by simpa [occursIn] using h) with h1 | h2
        · rcases (isPfx_iff p (c :: rest)).mp h1 with ⟨t, ht⟩
          exact ⟨[], t, by simpa using ht⟩
        · rcases ih.mp h2 with ⟨a, b, hab⟩
          exact ⟨c :: a, b, by simp [hab]⟩
      · rintro ⟨a, b, hab⟩
        cases a with
        | nil =>
            have : isPfx p (c :: rest) = true :=
              (isPfx_iff p (c :: rest)).mpr ⟨b, by simpa using hab⟩
            simp [occursIn, this]
        | cons a0 a' =>
            have hrest : rest = a' ++ p ++ b := by
              have := congrArg (fun l => List.tail l) hab
              simpa using this
            simp [occursIn, ih.mpr ⟨a', b, hrest⟩]

theorem occursIn_of_tail {p : Str} {c : Char} {rest : Str}
    (h : occursIn p rest = true) : occursIn p (c :: rest) = true := by
  simp [occursIn, h]

theorem not_occursIn_tail {p : Str} {c : Char} {rest : Str}
    (h : occursIn p (c :: rest) = false) : occursIn p rest = false := by
  by_contra hne
  have : occursIn p rest = true := by
    cases hov : occursIn p rest
    · exact absurd hov hne
    · rfl
  rw [occursIn_of_tail this] at h
  cases h

theorem isSfx_append (p a : Str) : isSfx p (a ++ p) = true := by
  induction a with
  | nil =>
      cases p with
      | nil => simp [isSfx]
      | cons c r => simp [isSfx]
  | cons c a' ih =>
      simp [isSfx, ih]

end StrLemmas

section ReplaceLemmas

theorem replaceDelAux_nil (p0 : Char) (ps : Str) (fuel : Nat) :
    replaceDelAux p0 ps fuel [] = [] := by
  cases fuel <;> rfl

theorem replaceDelAux_zero (p0 : Char) (ps : Str) (c : Char) (rest : Str) :
    replaceDelAux p0 ps 0 (c :: rest) = c :: rest := rfl

theorem replaceDelAux_cons (p0 : Char) (ps : Str) (fuel : Nat) (c : Char) (rest : Str) :
    replaceDelAux p0 ps (fuel + 1) (c :: rest) =
      if isPfx (p0 :: ps) (c :: rest) then replaceDelAux p0 ps fuel (rest.drop ps.length)
      else c :: replaceDelAux p0 ps fuel rest := rfl

theorem replaceDelAux_length_le (p0 : Char) (ps : Str) :
    ∀ fuel s, (replaceDelAux p0 ps fuel s).length ≤ s.length := by
  intro fuel
  induction fuel with
  | zero =>
      intro s
      cases s
      · rw [replaceDelAux_nil]
      · rw [replaceDelAux_zero]
  | succ f ih =>
      intro s
      cases s with
      | nil => rw [replaceDelAux_nil]
      | cons c rest =>
          rw [replaceDelAux_cons]
          by_cases hb : isPfx (p0 :: ps) (c :: rest) = true
          · rw [if_pos hb]
            have h1 := ih (rest.drop ps.length)
            have h2 : (rest.drop ps.length).length = rest.length - ps.length :=
              List.length_drop _ _
            simp only [List.length_cons]
            omega
          · rw [if_neg hb]
            have h1 := ih rest
            simp only [List.length_cons]
            omega

theorem append_overlap :
    ∀ (P u v t : Str), u ++ v = P ++ t → P.length ≤ u.length → ∃ w, u = P ++ w := by
  intro P
  induction P with
  | nil =>
      intro u v t _ _
      exact ⟨u, rfl⟩
  | cons c P' ih =>
      intro u v t heq hlen
      cases u with
      | nil => simp at hlen
      | cons d u' =>
          have hcd : d = c := by
            have := congrArg List.head? heq
            simpa using this
          have htail : u' ++ v = P' ++ t := by
            have := congrArg List.tail heq
            simpa using this
          rcases ih u' v t htail (by simpa using hlen) with ⟨w, hw⟩
          exact ⟨w, by simp [hcd, hw]⟩

theorem dot_no_straddle {ext : Str} (hdot : '.' ∉ ext) :
    ∀ u : Str, u ≠ [] → isPfx ('.' :: ext) (u ++ '.' :: ext) = true →
      occursIn ('.' :: ext) u = true := by
  intro u hu hpfx
  rcases (isPfx_iff _ _).mp hpfx with ⟨t, ht⟩
  by_cases hlen : ('.' :: ext).length ≤ u.length
  · rcases append_overlap ('.' :: ext) u ('.' :: ext) t ht hlen with ⟨w, hw⟩
    exact (occursIn_iff _ u).mpr ⟨[], w, by simpa using hw⟩
  · have hlen' : u.length ≤ ('.' :: ext).length := by omega
    rcases append_overlap u ('.' :: ext) t ('.' :: ext) ht.symm hlen' with ⟨w, hw⟩
    have hwne : w ≠ [] := by
      intro hnil
      have hlw := congrArg List.length hw
      rw [hnil] at hlw
      simp only [List.length_cons, List.length_append, List.length_nil] at hlw
      simp only [List.length_cons] at hlen
      omega
    have hcancel : u ++ w = w ++ t := by
      have h1 : u ++ ('.' :: ext) = ('.' :: ext) ++ t := ht
      rw [hw] at h1
      have h2 : u ++ (u ++ w) = u ++ (w ++ t) := by simpa [List.append_assoc] using h1
      exact List.append_cancel_left h2
    cases u with
    | nil => exact absurd rfl hu
    | cons c u' =>
        cases w with
        | nil => exact absurd rfl hwne
        | cons d w' =>
            have hc : '.' = c := by
              have := congrArg List.head? hw
              simpa using this
            have hd : c = d := by
              have := congrArg List.head? hcancel
              simpa using this
            have hd2 : d = '.' := (hc.trans hd).symm
            have hext : ext = u' ++ d :: w' := by
              have := congrArg List.tail hw
              simpa using this
            have hmem : '.' ∈ ext := by
              rw [hext, hd2]
              simp
            exact absurd hmem hdot

theorem replaceDelAux_restore {ext : Str} (hdot : '.' ∉ ext) :
    ∀ fuel id, id.length + ext.length + 1 ≤ fuel →
      occursIn ('.' :: ext) id = false →
      replaceDelAux '.' ext fuel (id ++ '.' :: ext) = id := by
  intro fuel
  induction fuel with
  | zero =>
      intro id hf _
      omega
  | succ f ih =>
      intro id hf hocc
      cases id with
      | nil =>
          have hp : isPfx ('.' :: ext) ('.' :: ext) = true := by
            have := isPfx_append ('.' :: ext) []
            simpa using this
          rw [List.nil_append, replaceDelAux_cons, if_pos hp, List.drop_length,
            replaceDelAux_nil]
      | cons c id' =>
          have hbn : ¬ isPfx ('.' :: ext) (c :: (id' ++ '.' :: ext)) = true := by
            intro h
            have h2 : isPfx ('.' :: ext) ((c :: id') ++ '.' :: ext) = true := by
              rw [List.cons_append]
              exact h
            have := dot_no_straddle hdot (c :: id') (by simp) h2
            rw [this] at hocc
            cases hocc
          have hocc' : occursIn ('.' :: ext) id' = false := not_occursIn_tail hocc
          have hlen : id'.length + ext.length + 1 ≤ f := by
            simp only [List.length_cons] at hf
            omega
          rw [List.cons_append, replaceDelAux_cons, if_neg hbn, ih id' hlen hocc']

theorem replaceDelAux_trailing (p0 : Char) (ps : Str) :
    ∀ fuel x, x.length + ps.length + 1 ≤ fuel →
      (replaceDelAux p0 ps fuel (x ++ p0 :: ps)).length ≤ x.length := by
  intro fuel
  induction fuel with
  | zero =>
      intro x hf
      omega
  | succ f ih =>
      intro x hf
      cases x with
      | nil =>
          have hp : isPfx (p0 :: ps) (p0 :: ps) = true := by
            have := isPfx_append (p0 :: ps) []
            simpa using this
          rw [List.nil_append, replaceDelAux_cons, if_pos hp, List.drop_length,
            replaceDelAux_nil]
      | cons c x' =>
          rw [List.cons_append, replaceDelAux_cons]
          by_cases hb : isPfx (p0 :: ps) (c :: (x' ++ p0 :: ps)) = true
          · rw [if_pos hb]
            have h1 := replaceDelAux_length_le p0 ps f ((x' ++ p0 :: ps).drop ps.length)
            have h2 : ((x' ++ p0 :: ps).drop ps.length).length
                = (x' ++ p0 :: ps).length - ps.length := List.length_drop _ _
            simp only [List.length_append, List.length_cons] at h2
            simp only [List.length_cons]
            omega
          · rw [if_neg hb]
            have h1 := ih x' (by simp only [List.length_cons] at hf; omega)
            simp only [List.length_cons]
            omega

theorem replaceDelAux_shrink (p0 : Char) (ps : Str) :
    ∀ fuel id, id.length + ps.length + 1 ≤ fuel →
      occursIn (p0 :: ps) id = true →
      (replaceDelAux p0 ps fuel (id ++ p0 :: ps)).length + ps.length + 1 ≤ id.length := by
  intro fuel
  induction fuel with
  | zero =>
      intro id hf _
      omega
  | succ f ih =>
      intro id hf hocc
      have hLlen : ps.length + 1 ≤ id.length := by
        rcases (occursIn_iff _ id).mp hocc with ⟨a, b, hab⟩
        have := congrArg List.length hab
        simp at this
        omega
      cases id with
      | nil => simp at hLlen
      | cons c id' =>
          rw [List.cons_append, replaceDelAux_cons]
          by_cases hb : isPfx (p0 :: ps) (c :: (id' ++ p0 :: ps)) = true
          · rw [if_pos hb]
            have hps : ps.length ≤ id'.length := by
              simp only [List.length_cons] at hLlen
              omega
            have hdropeq : (id' ++ p0 :: ps).drop ps.length
                = id'.drop ps.length ++ p0 :: ps := List.drop_append_of_le_length hps
            rw [hdropeq]
            have h1 := replaceDelAux_trailing p0 ps f (id'.drop ps.length)
              (by
                have := List.length_drop ps.length id'
                simp only [List.length_cons] at hf
                omega)
            have h2 : (id'.drop ps.length).length = id'.length - ps.length :=
              List.length_drop _ _
            simp only [List.length_cons]
            omega
          · rw [if_neg hb]
            have hocc' : occursIn (p0 :: ps) id' = true := by
              rcases Bool.or_eq_true_iff.mp (by simpa [occursIn] using hocc) with h1 | h2
              · have hx : isPfx (p0 :: ps) ((c :: id') ++ p0 :: ps) = true :=
                  isPfx_extend (p0 :: ps) h1
                rw [List.cons_append] at hx
                exact absurd hx hb
              · exact h2
            have h1 := ih id' (by simp only [List.length_cons] at hf; omega) hocc'
            simp only [List.length_cons]
            omega

end ReplaceLemmas

section SplitLemmas

theorem pySplitAux_nil (s0 : Char) (ss : Str) (fuel : Nat) (acc : Str) :
    pySplitAux s0 ss fuel acc [] = [acc.reverse] := by
  cases fuel <;> rfl

theorem pySplitAux_zero (s0 : Char) (ss : Str) (acc : Str) (c : Char) (rest : Str) :
    pySplitAux s0 ss 0 acc (c :: rest) = [acc.reverse ++ (c :: rest)] := rfl

theorem pySplitAux_cons (s0 : Char) (ss : Str) (fuel : Nat) (acc : Str) (c : Char) (rest : Str) :
    pySplitAux s0 ss (fuel + 1) acc (c :: rest) =
      if isPfx (s0 :: ss) (c :: rest) then
        acc.reverse :: pySplitAux s0 ss fuel [] (rest.drop ss.length)
      else pySplitAux s0 ss fuel (c :: acc) rest := rfl

theorem pySplitAux_ne_nil (s0 : Char) (ss : Str) :
    ∀ fuel acc l, pySplitAux s0 ss fuel acc l ≠ [] := by
  intro fuel
  induction fuel with
  | zero =>
      intro acc l
      cases l
      · rw [pySplitAux_nil]
        simp
      · rw [pySplitAux_zero]
        simp
  | succ f ih =>
      intro acc l
      cases l with
      | nil =>
          rw [pySplitAux_nil]
          simp
      | cons c rest =>
          rw [pySplitAux_cons]
          by_cases hb : isPfx (s0 :: ss) (c :: rest) = true
          · rw [if_pos hb]
            simp
          · rw [if_neg hb]
            exact ih (c :: acc) rest

theorem pySplitAux_no_sep (s0 : Char) (ss : Str) :
    ∀ fuel acc l, occursIn (s0 :: ss) l = false →
      pySplitAux s0 ss fuel acc l = [acc.reverse ++ l] := by
  intro fuel
  induction fuel with
  | zero =>
      intro acc l _
      cases l
      · rw [pySplitAux_nil]
        simp
      · rw [pySplitAux_zero]
  | succ f ih =>
      intro acc l hocc
      cases l with
      | nil =>
          rw [pySplitAux_nil]
          simp
      | cons c rest =>
          have hbn : ¬ isPfx (s0 :: ss) (c :: rest) = true := by
            intro h
            have : occursIn (s0 :: ss) (c :: rest) = true := by
              simp [occursIn, h]
            rw [this] at hocc
            cases hocc
          rw [pySplitAux_cons, if_neg hbn, ih (c :: acc) rest (not_occursIn_tail hocc)]
          simp

theorem isPfx_vMarker_second_qm (c : Char) (rest : Str) :
    isPfx vMarker (c :: '?' :: rest) = false := by
  by_cases h : '?' = c
  · simp only [vMarker, isPfx, if_pos h]
    rw [if_neg (by decide : ¬ ('v' : Char) = '?')]
  · simp only [vMarker, isPfx, if_neg h]

theorem isPfx_vMarker_third_qm (c d : Char) (rest : Str) :
    isPfx vMarker (c :: d :: '?' :: rest) = false := by
  by_cases h : '?' = c
  · by_cases h2 : 'v' = d
    · simp only [vMarker, isPfx, if_pos h, if_pos h2]
      rw [if_neg (by decide : ¬ ('=' : Char) = '?')]
    · simp only [vMarker, isPfx, if_pos h, if_neg h2]
  · simp only [vMarker, isPfx, if_neg h]

theorem pySplitAux_after_marker (b : Str) (hocc : occursIn vMarker b = false) :
    ∀ fuel l acc dflt, l.length + b.length + 3 ≤ fuel →
      (pySplitAux '?' ['v', '='] fuel acc (l ++ vMarker ++ b)).getLastD dflt = b := by
  intro fuel
  induction fuel with
  | zero =>
      intro l acc dflt hf
      omega
  | succ f ih =>
      intro l acc dflt hf
      cases l with
      | nil =>
          have hm : isPfx ('?' :: ['v', '=']) ('?' :: 'v' :: '=' :: b) = true :=
            isPfx_append vMarker b
          show (pySplitAux '?' ['v', '='] (f + 1) acc ('?' :: 'v' :: '=' :: b)).getLastD dflt = b
          rw [pySplitAux_cons, if_pos hm]
          show (acc.reverse :: pySplitAux '?' ['v', '='] f [] b).getLastD dflt = b
          rw [List.getLastD_cons, pySplitAux_no_sep '?' ['v', '='] f [] b hocc]
          simp
      | cons c l' =>
          show (pySplitAux '?' ['v', '='] (f + 1) acc (c :: (l' ++ vMarker ++ b))).getLastD dflt = b
          rw [pySplitAux_cons]
          by_cases hb : isPfx ('?' :: ['v', '=']) (c :: (l' ++ vMarker ++ b)) = true
          · rw [if_pos hb]
            match l' with
            | [] =>
                have hfalse : isPfx ('?' :: ['v', '=']) (c :: (([] : Str) ++ vMarker ++ b)) = false :=
                  isPfx_vMarker_second_qm c ('v' :: '=' :: b)
                rw [hb] at hfalse
                exact Bool.noConfusion hfalse
            | [d] =>
                have hfalse : isPfx ('?' :: ['v', '=']) (c :: ([d] ++ vMarker ++ b)) = false :=
                  isPfx_vMarker_third_qm c d ('v' :: '=' :: b)
                rw [hb] at hfalse
                exact Bool.noConfusion hfalse
            | d :: e :: l'' =>
                show (acc.reverse ::
                    pySplitAux '?' ['v', '='] f [] (l'' ++ vMarker ++ b)).getLastD dflt = b
                rw [List.getLastD_cons]
                refine ih l'' [] acc.reverse ?_
                simp only [List.length_cons] at hf
                omega
          · rw [if_neg hb]
            refine ih l' (c :: acc) dflt ?_
            simp only [List.length_cons] at hf
            omega

theorem pySplit_ne_nil (s0 : Char) (ss l : Str) : pySplit s0 ss l ≠ [] :=
  pySplitAux_ne_nil s0 ss l.length [] l

theorem video_name_no_marker {url : Str} (h : occursIn vMarker url = false) :
    video_name_of url = url := by
  unfold video_name_of pySplit
  rw [pySplitAux_no_sep '?' ['v', '='] url.length [] url h]
  simp

theorem video_name_after_marker {a b : Str} (hocc : occursIn vMarker b = false) :
    video_name_of (a ++ vMarker ++ b) = b := by
  unfold video_name_of pySplit
  refine pySplitAux_after_marker b hocc (a ++ vMarker ++ b).length a [] [] ?_
  simp only [List.length_append, vMarker, List.length_cons, List.length_nil]
  omega

end SplitLemmas

section PathLemmas

theorem foldl_basename_no_slash :
    ∀ (l : Str) (acc : Str), '/' ∉ l →
      l.foldl (fun acc c => if c = '/' then [] else acc ++ [c]) acc = acc ++ l := by
  intro l
  induction l with
  | nil =>
      intro acc _
      simp
  | cons c l' ih =>
      intro acc h
      have hc : ¬ c = '/' := by
        intro hc
        exact h (by simp [hc])
      have h' : '/' ∉ l' := by
        intro hm
        exact h (by simp [hm])
      simp only [List.foldl_cons, if_neg hc]
      rw [ih (acc ++ [c]) h']
      simp

theorem foldl_basename_slash_head (b : Str) (acc : Str) :
    ('/' :: b).foldl (fun acc c => if c = '/' then [] else acc ++ [c]) acc =
      b.foldl (fun acc c => if c = '/' then [] else acc ++ [c]) [] := by
  simp

theorem basenameL_joinP (a : Str) {b : Str} (h : '/' ∉ b) : basenameL (joinP a b) = b := by
  unfold basenameL joinP
  rw [show a ++ '/' :: b = a ++ ('/' :: b) from rfl, List.foldl_append,
    foldl_basename_slash_head, foldl_basename_no_slash b [] h]
  simp

end PathLemmas

section FetchLemmas

theorem fetchLoopF_zero (fetch : Nat → Option Str) (m a : Nat) :
    fetchLoopF fetch m a 0 = (none, a) := rfl

theorem fetchLoopF_succ_none {fetch : Nat → Option Str} {a : Nat} (m fuel : Nat)
    (h : fetch a = none) : fetchLoopF fetch m a (fuel + 1) = (none, a + 1) := by
  simp only [fetchLoopF, h]

theorem fetchLoopF_succ_some {fetch : Nat → Option Str} {a : Nat} {err : Str} (m fuel : Nat)
    (h : fetch a = some err) :
    fetchLoopF fetch m a (fuel + 1) =
      if a + 1 = m then (some err, a + 1) else fetchLoopF fetch m (a + 1) fuel := by
  simp only [fetchLoopF, h]

theorem fetchLoopF_allFail {fetch : Nat → Option Str} {m : Nat}
    (hall : ∀ k, k < m → fetch k ≠ none) :
    ∀ fuel a, a + fuel = m → 0 < fuel → fetchLoopF fetch m a fuel = (fetch (m - 1), m) := by
  intro fuel
  induction fuel with
  | zero =>
      intro a _ h0
      omega
  | succ f ih =>
      intro a hsum _
      have ha : a < m := by omega
      cases he : fetch a with
      | none => exact absurd he (hall a ha)
      | some err =>
          rw [fetchLoopF_succ_some m f he]
          by_cases hlast : a + 1 = m
          · rw [if_pos hlast]
            have hm1 : m - 1 = a := by omega
            rw [hm1, he, hlast]
          · rw [if_neg hlast]
            exact ih (a + 1) (by omega) (by omega)

theorem fetchLoop_allFail {fetch : Nat → Option Str} {m : Nat} (hm : 0 < m)
    (hall : ∀ k, k < m → fetch k ≠ none) : fetchLoop fetch m = (fetch (m - 1), m) :=
  fetchLoopF_allFail hall m 0 (by omega) hm

end FetchLemmas

section CollectLemmas

theorem option_some_or {α : Type} (a : α) (x : Option α) : (some a).or x = some a := rfl

theorem option_none_or {α : Type} (x : Option α) : (Option.or none x) = x := rfl

theorem lookupA_append {α : Type} :
    ∀ (m1 m2 : List (Str × α)) (name : Str),
      lookupA (m1 ++ m2) name = (lookupA m1 name).or (lookupA m2 name) := by
  intro m1
  induction m1 with
  | nil =>
      intro m2 name
      rfl
  | cons kv m1' ih =>
      intro m2 name
      obtain ⟨k, v⟩ := kv
      by_cases hk : k = name
      · simp only [List.cons_append, lookupA, if_pos hk, option_some_or]
      · simp only [List.cons_append, lookupA, if_neg hk]
        exact ih m2 name

theorem collectAux_nil (m : List (Str × Str × Int × Int)) (d : Nat) :
    collectAux m [] d = (m, d) := rfl

theorem collectAux_cons_dup {m : List (Str × Str × Int × Int)} {r : SrcRecord}
    (rs : List SrcRecord) (d : Nat) (h : (lookupA m (video_name_of r.url)).isSome = true) :
    collectAux m (r :: rs) d = collectAux m rs (d + 1) := by
  simp only [collectAux]
  rw [if_pos h]

theorem collectAux_cons_new {m : List (Str × Str × Int × Int)} {r : SrcRecord}
    (rs : List SrcRecord) (d : Nat) (h : (lookupA m (video_name_of r.url)).isSome = false) :
    collectAux m (r :: rs) d =
      collectAux (m ++ [(video_name_of r.url, r.url, r.seg0, r.seg1)]) rs d := by
  simp only [collectAux]
  rw [if_neg (by simp [h])]

theorem collectAux_lookup (name : Str) :
    ∀ (rs : List SrcRecord) (m : List (Str × Str × Int × Int)) (d : Nat),
      lookupA (collectAux m rs d).1 name =
        (lookupA m name).or
          ((firstRecordWith name rs).map (fun r => (r.url, r.seg0, r.seg1))) := by
  intro rs
  induction rs with
  | nil =>
      intro m d
      rw [collectAux_nil]
      simp [firstRecordWith, Option.or_none]
  | cons r rs' ih =>
      intro m d
      by_cases hs : (lookupA m (video_name_of r.url)).isSome = true
      · rw [collectAux_cons_dup rs' d hs, ih m (d + 1)]
        by_cases hnm : video_name_of r.url = name
        · rcases Option.isSome_iff_exists.mp hs with ⟨v, hv⟩
          rw [hnm] at hv
          rw [hv]
          rfl
        · simp [firstRecordWith, hnm]
      · have hs' : (lookupA m (video_name_of r.url)).isSome = false := by
          cases hx : (lookupA m (video_name_of r.url)).isSome
          · rfl
          · exact absurd hx hs
        rw [collectAux_cons_new rs' d hs', ih _ d, lookupA_append]
        by_cases hnm : video_name_of r.url = name
        · have hm_none : lookupA m name = none := by
            rw [← hnm]
            cases hx : lookupA m (video_name_of r.url) with
            | none => rfl
            | some v =>
                rw [hx] at hs'
                cases hs'
          rw [hm_none]
          simp [lookupA, firstRecordWith, hnm, option_none_or, option_some_or]
        · simp [lookupA, firstRecordWith, hnm, Option.or_none]

theorem collectAux_size :
    ∀ (rs : List SrcRecord) (m : List (Str × Str × Int × Int)) (d : Nat),
      (collectAux m rs d).1.length + (collectAux m rs d).2 = m.length + d + rs.length := by
  intro rs
  induction rs with
  | nil =>
      intro m d
      rw [collectAux_nil]
      simp
  | cons r rs' ih =>
      intro m d
      by_cases hs : (lookupA m (video_name_of r.url)).isSome = true
      · rw [collectAux_cons_dup rs' d hs]
        have h1 := ih m (d + 1)
        simp only [List.length_cons]
        omega
      · have hs' : (lookupA m (video_name_of r.url)).isSome = false := by
          cases hx : (lookupA m (video_name_of r.url)).isSome
          · rfl
          · exact absurd hx hs
        rw [collectAux_cons_new rs' d hs']
        have h1 := ih (m ++ [(video_name_of r.url, r.url, r.seg0, r.seg1)]) d
        simp only [List.length_append, List.length_cons, List.length_nil] at h1 ⊢
        omega

end CollectLemmas

section PrepareLemmas

theorem mkTasks_path_mem (srcs : List (Str × Str × Int × Int)) (ext : Str) :
    ∀ (ps : List Str) (res : List (Str × Str × Int × Int)),
      mkTasks srcs ext ps = Except.ok res → ∀ t ∈ res, t.2.1 ∈ ps := by
  intro ps
  induction ps with
  | nil =>
      intro res h t ht
      simp only [mkTasks] at h
      cases h
      cases ht
  | cons p ps' ih =>
      intro res h t ht
      cases hlk : lookupA srcs (recoverName ext p) with
      | none =>
          simp only [mkTasks, hlk] at h
          exact Except.noConfusion h
      | some v =>
          obtain ⟨url, s, e⟩ := v
          simp only [mkTasks, hlk] at h
          cases hmk : mkTasks srcs ext ps' with
          | error msg =>
              rw [hmk] at h
              simp only [Except.map] at h
              exact Except.noConfusion h
          | ok res' =>
              rw [hmk] at h
              simp only [Except.map, Except.ok.injEq] at h
              rw [← h] at ht
              rcases List.mem_cons.mp ht with h1 | h2
              · rw [h1]
                simp
              · exact List.mem_cons_of_mem p (ih res' hmk t h2)

end PrepareLemmas

section WorkerLemmas

theorem downloadVideo_fetchFail {env : WorkerEnv} {maxAttempts : Nat} (tmpDir url outFile : Str)
    (s e : Int) (fs : FS) {err : Str} {n : Nat}
    (h : fetchLoop env.fetchResult maxAttempts = (some err, n)) :
    downloadVideo env maxAttempts tmpDir url outFile s e fs =
      { result := (url, false, err), fetchCalls := n, transcodeCalls := 0,
        logs := [], fs := fs } := by
  unfold downloadVideo
  rw [h]

theorem downloadVideo_transcodeFail {env : WorkerEnv} {maxAttempts : Nat}
    (tmpDir url outFile : Str) (s e : Int) (fs : FS) {n : Nat}
    (hf : fetchLoop env.fetchResult maxAttempts = (none, n)) {err : Str}
    (ht : env.transcodeResult = some err) :
    downloadVideo env maxAttempts tmpDir url outFile s e fs =
      { result := (url, false, err), fetchCalls := n, transcodeCalls := 1,
        logs := [], fs := fsAfterFetch (joinP tmpDir env.fetchedName) fs } := by
  unfold downloadVideo
  rw [hf, ht]

theorem downloadVideo_success {env : WorkerEnv} {maxAttempts : Nat}
    (tmpDir url outFile : Str) (s e : Int) (fs : FS) {n : Nat}
    (hf : fetchLoop env.fetchResult maxAttempts = (none, n))
    (ht : env.transcodeResult = none) :
    downloadVideo env maxAttempts tmpDir url outFile s e fs =
      { result := (url,
          decide (outFile ∈ (fsAfterTranscode env outFile
            (fsAfterFetch (joinP tmpDir env.fetchedName) fs)).files), downloadedMsg),
        fetchCalls := n, transcodeCalls := 1,
        logs := [(url,
          decide (outFile ∈ (fsAfterTranscode env outFile
            (fsAfterFetch (joinP tmpDir env.fetchedName) fs)).files), downloadedMsg)],
        fs := { fsAfterTranscode env outFile (fsAfterFetch (joinP tmpDir env.fetchedName) fs) with
          files := (fsAfterTranscode env outFile
              (fsAfterFetch (joinP tmpDir env.fetchedName) fs)).files.filter
            (fun q => decide (q ≠ joinP tmpDir env.fetchedName)) } } := by
  unfold downloadVideo
  rw [hf, ht]

theorem runSeq_length (maxA : Nat) (tmp : Str) (envs : Nat → WorkerEnv) :
    ∀ (ts : List TaskT) (idx : Nat) (fs : FS),
      (runSeq maxA tmp envs idx fs ts).results.length = ts.length := by
  intro ts
  induction ts with
  | nil =>
      intro idx fs
      rfl
  | cons t ts' ih =>
      intro idx fs
      obtain ⟨url, out, s, e⟩ := t
      simp only [runSeq, List.length_cons]
      rw [ih]

end WorkerLemmas

section ExcLemmas

theorem fsAfterFetch_dirs (scratch : Str) (fs : FS) :
    (fsAfterFetch scratch fs).dirs = fs.dirs := rfl

theorem fsAfterTranscode_dirs (env : WorkerEnv) (outFile : Str) (fs : FS) :
    (fsAfterTranscode env outFile fs).dirs = fs.dirs := by
  unfold fsAfterTranscode
  by_cases h : env.outputCreated = true
  · rw [if_pos h]
  · rw [if_neg h]

theorem downloadVideoX_fetchFail {envx : WorkerEnvX} {maxAttempts : Nat}
    (tmpDir url outFile : Str) (s e : Int) (fs : FS) {err : Str} {n : Nat}
    (h : fetchLoop envx.base.fetchResult maxAttempts = (some err, n)) :
    downloadVideoX envx maxAttempts tmpDir url outFile s e fs =
      Except.ok { result := (url, false, err), fetchCalls := n, transcodeCalls := 0,
                  logs := [], fs := fs } := by
  unfold downloadVideoX
  rw [h]

theorem downloadVideoX_globFail {envx : WorkerEnvX} {maxAttempts : Nat}
    (tmpDir url outFile : Str) (s e : Int) (fs : FS) {n : Nat}
    (hf : fetchLoop envx.base.fetchResult maxAttempts = (none, n))
    (hg : envx.globMatches = false) :
    downloadVideoX envx maxAttempts tmpDir url outFile s e fs =
      Except.error (PyExc.indexError,
        fsAfterFetch (joinP tmpDir envx.base.fetchedName) fs) := by
  unfold downloadVideoX
  rw [hf, hg]
  rfl

theorem downloadVideoX_transcodeFail {envx : WorkerEnvX} {maxAttempts : Nat}
    (tmpDir url outFile : Str) (s e : Int) (fs : FS) {n : Nat}
    (hf : fetchLoop envx.base.fetchResult maxAttempts = (none, n))
    (hg : envx.globMatches = true) {err : Str}
    (ht : envx.base.transcodeResult = some err) :
    downloadVideoX envx maxAttempts tmpDir url outFile s e fs =
      Except.ok { result := (url, false, err), fetchCalls := n, transcodeCalls := 1,
                  logs := [],
                  fs := fsAfterFetch (joinP tmpDir envx.base.fetchedName) fs } := by
  unfold downloadVideoX
  rw [hf, hg, ht]
  rfl

theorem downloadVideoX_removeFail {envx : WorkerEnvX} {maxAttempts : Nat}
    (tmpDir url outFile : Str) (s e : Int) (fs : FS) {n : Nat}
    (hf : fetchLoop envx.base.fetchResult maxAttempts = (none, n))
    (hg : envx.globMatches = true) (ht : envx.base.transcodeResult = none)
    (hr : envx.removeOk = false) :
    downloadVideoX envx maxAttempts tmpDir url outFile s e fs =
      Except.error (PyExc.osError, fsAfterTranscode envx.base outFile
        (fsAfterFetch (joinP tmpDir envx.base.fetchedName) fs)) := by
  unfold downloadVideoX
  rw [hf, hg, ht, hr]
  rfl

theorem downloadVideoX_ok {envx : WorkerEnvX} {maxAttempts : Nat}
    (tmpDir url outFile : Str) (s e : Int) (fs : FS) {n : Nat}
    (hf : fetchLoop envx.base.fetchResult maxAttempts = (none, n))
    (hg : envx.globMatches = true) (ht : envx.base.transcodeResult = none)
    (hr : envx.removeOk = true) :
    downloadVideoX envx maxAttempts tmpDir url outFile s e fs =
      Except.ok
        { result := (url,
            decide (outFile ∈ (fsAfterTranscode envx.base outFile
              (fsAfterFetch (joinP tmpDir envx.base.fetchedName) fs)).files), downloadedMsg),
          fetchCalls := n, transcodeCalls := 1,
          logs := [(url,
            decide (outFile ∈ (fsAfterTranscode envx.base outFile
              (fsAfterFetch (joinP tmpDir envx.base.fetchedName) fs)).files), downloadedMsg)],
          fs := { fsAfterTranscode envx.base outFile (fsAfterFetch (joinP tmpDir envx.base.fetchedName) fs) with
            files := (fsAfterTranscode envx.base outFile
                (fsAfterFetch (joinP tmpDir envx.base.fetchedName) fs)).files.filter
              (fun q => decide (q ≠ joinP tmpDir envx.base.fetchedName)) } } := by
  unfold downloadVideoX
  rw [hf, hg, ht, hr]
  rfl

theorem downloadVideoX_agree (envx : WorkerEnvX) (maxAttempts : Nat) (tmpDir url outFile : Str)
    (s e : Int) (fs : FS) (hg : envx.globMatches = true) (hr : envx.removeOk = true) :
    downloadVideoX envx maxAttempts tmpDir url outFile s e fs =
      Except.ok (downloadVideo envx.base maxAttempts tmpDir url outFile s e fs) := by
  cases hfl : fetchLoop envx.base.fetchResult maxAttempts with
  | mk o n =>
    cases o with
    | some err =>
        rw [downloadVideoX_fetchFail tmpDir url outFile s e fs hfl,
          downloadVideo_fetchFail tmpDir url outFile s e fs hfl]
    | none =>
        cases ht : envx.base.transcodeResult with
        | some err =>
            rw [downloadVideoX_transcodeFail tmpDir url outFile s e fs hfl hg ht,
              downloadVideo_transcodeFail tmpDir url outFile s e fs hfl ht]
        | none =>
            rw [downloadVideoX_ok tmpDir url outFile s e fs hfl hg ht hr,
              downloadVideo_success tmpDir url outFile s e fs hfl ht]

theorem runSeqX_nil (maxAttempts : Nat) (tmpDir : Str) (envsx : Nat → WorkerEnvX)
    (idx : Nat) (fs : FS) :
    runSeqX maxAttempts tmpDir envsx idx fs [] =
      Except.ok { results := [], fs := fs, logs := [] } := rfl

theorem runSeqX_cons_err (maxAttempts : Nat) (tmpDir : Str) (envsx : Nat → WorkerEnvX)
    (idx : Nat) (fs : FS) (url out : Str) (s e : Int) (ts : List TaskT) {ef : PyExc × FS}
    (h : downloadVideoX (envsx idx) maxAttempts tmpDir url out s e fs = Except.error ef) :
    runSeqX maxAttempts tmpDir envsx idx fs ((url, out, s, e) :: ts) = Except.error ef := by
  simp only [runSeqX, h]

theorem runSeqX_cons_ok_err (maxAttempts : Nat) (tmpDir : Str) (envsx : Nat → WorkerEnvX)
    (idx : Nat) (fs : FS) (url out : Str) (s e : Int) (ts : List TaskT) {tr : DLTrace}
    (h1 : downloadVideoX (envsx idx) maxAttempts tmpDir url out s e fs = Except.ok tr)
    {ef : PyExc × FS}
    (h2 : runSeqX maxAttempts tmpDir envsx (idx + 1) tr.fs ts = Except.error ef) :
    runSeqX maxAttempts tmpDir envsx idx fs ((url, out, s, e) :: ts) = Except.error ef := by
  simp only [runSeqX, h1, h2]

theorem runSeqX_cons_ok_ok (maxAttempts : Nat) (tmpDir : Str) (envsx : Nat → WorkerEnvX)
    (idx : Nat) (fs : FS) (url out : Str) (s e : Int) (ts : List TaskT) {tr : DLTrace}
    (h1 : downloadVideoX (envsx idx) maxAttempts tmpDir url out s e fs = Except.ok tr)
    {rest : PoolOut}
    (h2 : runSeqX maxAttempts tmpDir envsx (idx + 1) tr.fs ts = Except.ok rest) :
    runSeqX maxAttempts tmpDir envsx idx fs ((url, out, s, e) :: ts) =
      Except.ok { results := tr.result :: rest.results, fs := rest.fs,
                  logs := tr.logs ++ rest.logs } := by
  simp only [runSeqX, h1, h2]

theorem runSeqX_agree (maxAttempts : Nat) (tmpDir : Str) (envsx : Nat → WorkerEnvX)
    (hall : ∀ i, (envsx i).globMatches = true ∧ (envsx i).removeOk = true) :
    ∀ (ts : List TaskT) (idx : Nat) (fs : FS),
      runSeqX maxAttempts tmpDir envsx idx fs ts =
        Except.ok (runSeq maxAttempts tmpDir (fun i => (envsx i).base) idx fs ts) := by
  intro ts
  induction ts with
  | nil =>
      intro idx fs
      rfl
  | cons t ts' ih =>
      intro idx fs
      obtain ⟨url, out, s, e⟩ := t
      have hagree := downloadVideoX_agree (envsx idx) maxAttempts tmpDir url out s e fs
        (hall idx).1 (hall idx).2
      simp only [runSeqX, runSeq, hagree, ih]

theorem videoDownloaderCallX_agree (numJobs maxAttempts : Nat) (tmpDir : Str)
    (envsx : Nat → WorkerEnvX) (tasks : List TaskT) (fs : FS)
    (hall : ∀ i, (envsx i).globMatches = true ∧ (envsx i).removeOk = true) :
    videoDownloaderCallX numJobs maxAttempts tmpDir envsx tasks fs =
      Except.ok (videoDownloaderCall numJobs maxAttempts tmpDir
        (fun i => (envsx i).base) tasks fs) := by
  unfold videoDownloaderCallX videoDownloaderCall runModeX runMode
  by_cases h0 : tasks.length = 0
  · rw [if_pos h0, if_pos h0]
  · rw [if_neg h0, if_neg h0]
    by_cases h1 : numJobs = 1
    · rw [if_pos h1, if_pos h1,
        runSeqX_agree maxAttempts tmpDir envsx hall tasks 0 (ensureDir tmpDir fs)]
    · rw [if_neg h1, if_neg h1,
        runSeqX_agree maxAttempts tmpDir envsx hall tasks 0 (ensureDir tmpDir fs)]

theorem downloadVideoX_dirs (envx : WorkerEnvX) (maxAttempts : Nat) (tmpDir url outFile : Str)
    (s e : Int) (fs : FS) :
    (∀ tr, downloadVideoX envx maxAttempts tmpDir url outFile s e fs = Except.ok tr →
        tr.fs.dirs = fs.dirs) ∧
    (∀ exc fs', downloadVideoX envx maxAttempts tmpDir url outFile s e fs =
        Except.error (exc, fs') → fs'.dirs = fs.dirs) := by
  cases hfl : fetchLoop envx.base.fetchResult maxAttempts with
  | mk o n =>
    cases o with
    | some err =>
        have heq := downloadVideoX_fetchFail tmpDir url outFile s e fs hfl
        constructor
        · intro tr htr
          rw [heq] at htr
          injection htr with htr
          rw [← htr]
        · intro exc fs' h
          rw [heq] at h
          exact Except.noConfusion h
    | none =>
        by_cases hg : envx.globMatches = true
        · cases ht : envx.base.transcodeResult with
          | some err =>
              have heq := downloadVideoX_transcodeFail tmpDir url outFile s e fs hfl hg ht
              constructor
              · intro tr htr
                rw [heq] at htr
                injection htr with htr
                rw [← htr]
                rfl
              · intro exc fs' h
                rw [heq] at h
                exact Except.noConfusion h
          | none =>
              by_cases hr : envx.removeOk = true
              · have heq := downloadVideoX_ok tmpDir url outFile s e fs hfl hg ht hr
                constructor
                · intro tr htr
                  rw [heq] at htr
                  injection htr with htr
                  rw [← htr]
                  show (fsAfterTranscode envx.base outFile
                      (fsAfterFetch (joinP tmpDir envx.base.fetchedName) fs)).dirs = fs.dirs
                  rw [fsAfterTranscode_dirs, fsAfterFetch_dirs]
                · intro exc fs' h
                  rw [heq] at h
                  exact Except.noConfusion h
              · have hr' : envx.removeOk = false := by
                  cases hx : envx.removeOk
                  · rfl
                  · exact absurd hx hr
                have heq := downloadVideoX_removeFail tmpDir url outFile s e fs hfl hg ht hr'
                constructor
                · intro tr htr
                  rw [heq] at htr
                  exact Except.noConfusion htr
                · intro exc fs' h
                  rw [heq] at h
                  simp only [Except.error.injEq, Prod.mk.injEq] at h
                  rw [← h.2, fsAfterTranscode_dirs, fsAfterFetch_dirs]
        · have hg' : envx.globMatches = false := by
            cases hx : envx.globMatches
            · rfl
            · exact absurd hx hg
          have heq := downloadVideoX_globFail tmpDir url outFile s e fs hfl hg'
          constructor
          · intro tr htr
            rw [heq] at htr
            exact Except.noConfusion htr
          · intro exc fs' h
            rw [heq] at h
            simp only [Except.error.injEq, Prod.mk.injEq] at h
            rw [← h.2, fsAfterFetch_dirs]

theorem runSeqX_dirs (maxAttempts : Nat) (tmpDir : Str) (envsx : Nat → WorkerEnvX) :
    ∀ (ts : List TaskT) (idx : Nat) (fs : FS),
      (∀ out, runSeqX maxAttempts tmpDir envsx idx fs ts = Except.ok out →
          out.fs.dirs = fs.dirs) ∧
      (∀ exc fs', runSeqX maxAttempts tmpDir envsx idx fs ts = Except.error (exc, fs') →
          fs'.dirs = fs.dirs) := by
  intro ts
  induction ts with
  | nil =>
      intro idx fs
      constructor
      · intro out h
        rw [runSeqX_nil] at h
        injection h with h
        rw [← h]
      · intro exc fs' h
        rw [runSeqX_nil] at h
        exact Except.noConfusion h
  | cons t ts' ih =>
      intro idx fs
      obtain ⟨url, out0, s, e⟩ := t
      have hdl := downloadVideoX_dirs (envsx idx) maxAttempts tmpDir url out0 s e fs
      cases hdx : downloadVideoX (envsx idx) maxAttempts tmpDir url out0 s e fs with
      | error ef =>
          obtain ⟨exc0, fs0⟩ := ef
          have heq := runSeqX_cons_err maxAttempts tmpDir envsx idx fs url out0 s e ts' hdx
          constructor
          · intro out h
            rw [heq] at h
            exact Except.noConfusion h
          · intro exc fs' h
            rw [heq] at h
            simp only [Except.error.injEq, Prod.mk.injEq] at h
            rw [← h.2]
            exact hdl.2 exc0 fs0 hdx
      | ok tr =>
          have hih := ih (idx + 1) tr.fs
          cases hrs : runSeqX maxAttempts tmpDir envsx (idx + 1) tr.fs ts' with
          | error ef2 =>
              obtain ⟨exc1, fs1⟩ := ef2
              have heq := runSeqX_cons_ok_err maxAttempts tmpDir envsx idx fs url out0 s e
                ts' hdx hrs
              constructor
              · intro out h
                rw [heq] at h
                exact Except.noConfusion h
              · intro exc fs' h
                rw [heq] at h
                simp only [Except.error.injEq, Prod.mk.injEq] at h
                rw [← h.2]
                exact (hih.2 exc1 fs1 hrs).trans (hdl.1 tr hdx)
          | ok rest =>
              have heq := runSeqX_cons_ok_ok maxAttempts tmpDir envsx idx fs url out0 s e
                ts' hdx hrs
              constructor
              · intro out h
                rw [heq] at h
                injection h with h
                rw [← h]
                exact (hih.1 rest hrs).trans (hdl.1 tr hdx)
              · intro exc fs' h
                rw [heq] at h
                exact Except.noConfusion h

end ExcLemmas

/-- C1: for every task list and every parallelism degree at least 1, the
pool run (`VideoDownloader.__call__`) returns exactly one status triple per
input task — `len(results) == len(tasks)` — in the sequential
(`num_jobs == 1`) branch and in the `joblib.Parallel` branch alike. -/
theorem c1_pool_one_result_per_task (numJobs maxAttempts : Nat) (tmpDir : Str)
    (envs : Nat → WorkerEnv) (tasks : List TaskT) (fs : FS) (hjobs : 1 ≤ numJobs) :
    (videoDownloaderCall numJobs maxAttempts tmpDir envs tasks fs).results.length =
      tasks.length := by
  unfold videoDownloaderCall
  by_cases h0 : tasks.length = 0
  · rw [if_pos h0, h0]
    rfl
  · rw [if_neg h0]
    show (runMode numJobs maxAttempts tmpDir envs (ensureDir tmpDir fs) tasks).results.length
      = tasks.length
    unfold runMode
    by_cases h1 : numJobs = 1
    · rw [if_pos h1]
      exact runSeq_length maxAttempts tmpDir envs tasks 0 (ensureDir tmpDir fs)
    · rw [if_neg h1]
      exact runSeq_length maxAttempts tmpDir envs tasks 0 (ensureDir tmpDir fs)

theorem c1_witness :
    1 ≤ 2 ∧
    (videoDownloaderCall 2 5 ['t'] (fun _ => ⟨fun _ => some ['e'], ['f'], none, false⟩)
        [(['u'], ['o'], 0, 5)] ⟨[], []⟩).results.length = 1 :=
  ⟨by decide,
   c1_pool_one_result_per_task 2 5 ['t'] (fun _ => ⟨fun _ => some ['e'], ['f'], none, false⟩)
     [(['u'], ['o'], 0, 5)] ⟨[], []⟩ (by decide)⟩

/-- C2 counterexample: the claim says the workspace release runs
unconditionally, as a guaranteed-cleanup (finally-equivalent) step.  In
the source `rmtree(self.tmp_dir)` is plain straight-line code with no
try/finally, and the worker catches only `CalledProcessError`: here
`youtube-dl` succeeds on its first invocation but the glob matches
nothing, so the `glob.glob(...)[0]` subscript raises `IndexError` past
the worker and out of `__call__` before the `rmtree` line — the run ends
with the exception, the workspace directory still exists and the fetched
scratch file is leaked inside it. -/
theorem c2_counterexample :
    videoDownloaderCallX 1 3 ['t']
        (fun _ => ⟨⟨fun _ => none, ['f'], none, true⟩, false, true⟩)
        [(['u'], ['o'], 0, 5)] ⟨[], []⟩ =
      Except.error (PyExc.indexError, ⟨[['t']], [['t', '/', 'f']]⟩) ∧
    (['t'] : Str) ∈ (⟨[['t']], [['t', '/', 'f']]⟩ : FS).dirs ∧
    (['t', '/', 'f'] : Str) ∈ (⟨[['t']], [['t', '/', 'f']]⟩ : FS).files :=
  ⟨rfl, by decide, by decide⟩

/-- C2 amended: for every non-empty task list the pool creates the
workspace directory before any task executes (if absent); the subsequent
recursive removal is a straight-line step, not a finally-equivalent one —
it runs exactly on the executions in which every worker returns a
TaskResult (including every fetch or transcode failure captured as
`CalledProcessError` and returned as data), while an uncaught worker
exception (`IndexError` from an empty glob, `OSError` from `remove`)
propagates out of `__call__` and skips the removal, leaving the workspace
directory in place — best-effort cleanup, not guaranteed cleanup. -/
theorem c2_straightline_cleanup (numJobs maxAttempts : Nat) (tmpDir : Str)
    (envsx : Nat → WorkerEnvX) (tasks : List TaskT) (fs : FS) (hne : tasks ≠ []) :
    tmpDir ∈ (ensureDir tmpDir fs).dirs ∧
    (∀ out, videoDownloaderCallX numJobs maxAttempts tmpDir envsx tasks fs = Except.ok out →
        tmpDir ∉ out.fs.dirs ∧
        ∀ p : Str, isPfx (tmpDir ++ ['/']) p = true → p ∉ out.fs.files) ∧
    (∀ exc fs', videoDownloaderCallX numJobs maxAttempts tmpDir envsx tasks fs =
        Except.error (exc, fs') → tmpDir ∈ fs'.dirs) := by
  have hlen : ¬ tasks.length = 0 := fun h => hne (List.length_eq_zero.mp h)
  have h1 : tmpDir ∈ (ensureDir tmpDir fs).dirs := by
    unfold ensureDir
    by_cases hmem : tmpDir ∈ fs.dirs
    · rw [if_pos hmem]
      exact hmem
    · rw [if_neg hmem]
      exact List.mem_cons_self _ _
  refine ⟨h1, ?_, ?_⟩
  · intro out hok
    unfold videoDownloaderCallX at hok
    rw [if_neg hlen] at hok
    cases hrm : runModeX numJobs maxAttempts tmpDir envsx (ensureDir tmpDir fs) tasks with
    | error ef =>
        simp only [hrm] at hok
        exact Except.noConfusion hok
    | ok o =>
        simp only [hrm] at hok
        injection hok with hok
        rw [← hok]
        constructor
        · intro hmem2
          rcases List.mem_filter.mp hmem2 with ⟨_, hdec⟩
          exact (of_decide_eq_true hdec) rfl
        · intro p hp hmem2
          rcases List.mem_filter.mp hmem2 with ⟨_, hdec⟩
          rw [hp] at hdec
          exact Bool.noConfusion hdec
  · intro exc fs' herr
    unfold videoDownloaderCallX at herr
    rw [if_neg hlen] at herr
    cases hrm : runModeX numJobs maxAttempts tmpDir envsx (ensureDir tmpDir fs) tasks with
    | error ef =>
        obtain ⟨exc0, fs0⟩ := ef
        simp only [hrm] at herr
        simp only [Except.error.injEq, Prod.mk.injEq] at herr
        have hpres : fs0.dirs = (ensureDir tmpDir fs).dirs := by
          unfold runModeX at hrm
          by_cases hj : numJobs = 1
          · rw [if_pos hj] at hrm
            exact (runSeqX_dirs maxAttempts tmpDir envsx tasks 0 (ensureDir tmpDir fs)).2
              exc0 fs0 hrm
          · rw [if_neg hj] at hrm
            exact (runSeqX_dirs maxAttempts tmpDir envsx tasks 0 (ensureDir tmpDir fs)).2
              exc0 fs0 hrm
        rw [← herr.2, hpres]
        exact h1
    | ok o =>
        simp only [hrm] at herr
        exact Except.noConfusion herr

theorem c2_amended_witness :
    ([(['u'], ['o'], 0, 5)] : List TaskT) ≠ [] ∧
    (['t'] : Str) ∉ (⟨[(['u'], false, ['e'])], ⟨[], []⟩, []⟩ : PoolOut).fs.dirs :=
  ⟨by decide,
   ((c2_straightline_cleanup 1 1 ['t']
       (fun _ => ⟨⟨fun _ => some ['e'], ['f'], none, false⟩, true, true⟩)
       [(['u'], ['o'], 0, 5)] ⟨[], []⟩ (by decide)).2.1
     ⟨[(['u'], false, ['e'])], ⟨[], []⟩, []⟩ rfl).1⟩

/-- C3: when every fetch invocation fails, `_download_video` performs
exactly `max_num_attempts` fetch invocations and no transcode invocation,
and returns a failed triple whose message is the error output captured
from the retrieval tool on the last attempt. -/
theorem c3_fetch_exhaustion (env : WorkerEnv) (maxAttempts : Nat) (tmpDir url outFile : Str)
    (s e : Int) (fs : FS) (hmax : 0 < maxAttempts)
    (hall : ∀ k, k < maxAttempts → env.fetchResult k ≠ none) :
    (downloadVideo env maxAttempts tmpDir url outFile s e fs).fetchCalls = maxAttempts ∧
    (downloadVideo env maxAttempts tmpDir url outFile s e fs).transcodeCalls = 0 ∧
    (downloadVideo env maxAttempts tmpDir url outFile s e fs).result.1 = url ∧
    (downloadVideo env maxAttempts tmpDir url outFile s e fs).result.2.1 = false ∧
    env.fetchResult (maxAttempts - 1) =
      some (downloadVideo env maxAttempts tmpDir url outFile s e fs).result.2.2 := by
  have hfl := fetchLoop_allFail hmax hall
  have hlast : maxAttempts - 1 < maxAttempts := by omega
  cases herr : env.fetchResult (maxAttempts - 1) with
  | none => exact absurd herr (hall _ hlast)
  | some errv =>
      rw [herr] at hfl
      rw [downloadVideo_fetchFail tmpDir url outFile s e fs hfl]
      exact ⟨rfl, rfl, rfl, rfl, rfl⟩

theorem c3_witness :
    0 < 3 ∧
    (downloadVideo ⟨fun _ => some ['e'], ['f'], none, true⟩ 3 ['t'] ['u'] ['o'] 0 5
      ⟨[], []⟩).fetchCalls = 3 :=
  ⟨by decide,
   (c3_fetch_exhaustion ⟨fun _ => some ['e'], ['f'], none, true⟩ 3 ['t'] ['u'] ['o'] 0 5
     ⟨[], []⟩ (by decide) (fun k _ hk => Option.noConfusion hk)).1⟩

/-- C4: when the fetch phase succeeds and the transcode invocation fails,
`_download_video` returns a failed triple carrying the transcode tool's
error output after exactly one transcode invocation, as an ordinary
return value. -/
theorem c4_transcode_failure (env : WorkerEnv) (maxAttempts : Nat) (tmpDir url outFile : Str)
    (s e : Int) (fs : FS) {n : Nat}
    (hf : fetchLoop env.fetchResult maxAttempts = (none, n)) {err : Str}
    (ht : env.transcodeResult = some err) :
    (downloadVideo env maxAttempts tmpDir url outFile s e fs).result = (url, false, err) ∧
    (downloadVideo env maxAttempts tmpDir url outFile s e fs).transcodeCalls = 1 := by
  rw [downloadVideo_transcodeFail tmpDir url outFile s e fs hf ht]
  exact ⟨rfl, rfl⟩

theorem c4_witness :
    fetchLoop (fun _ => none) 5 = (none, 1) ∧
    (downloadVideo ⟨fun _ => none, ['f'], some ['x'], true⟩ 5 ['t'] ['u'] ['o'] 0 5
      ⟨[], []⟩).result = (['u'], false, ['x']) :=
  ⟨by decide,
   (@c4_transcode_failure ⟨fun _ => none, ['f'], some ['x'], true⟩ 5 ['t'] ['u'] ['o'] 0 5
     ⟨[], []⟩ 1 (by decide) ['x'] (by decide)).1⟩

/-- C5: when the transcode invocation succeeds, the returned triple's
status is exactly the filesystem existence of the destination path, its
message is `'Downloaded'`, the identifier is the url, and the scratch
fetched file is no longer on the filesystem afterwards. -/
theorem c5_transcode_success (env : WorkerEnv) (maxAttempts : Nat) (tmpDir url outFile : Str)
    (s e : Int) (fs : FS) {n : Nat}
    (hf : fetchLoop env.fetchResult maxAttempts = (none, n))
    (ht : env.transcodeResult = none) :
    (downloadVideo env maxAttempts tmpDir url outFile s e fs).result.2.1 =
      decide (outFile ∈ (fsAfterTranscode env outFile
        (fsAfterFetch (joinP tmpDir env.fetchedName) fs)).files) ∧
    (downloadVideo env maxAttempts tmpDir url outFile s e fs).result.2.2 = downloadedMsg ∧
    (downloadVideo env maxAttempts tmpDir url outFile s e fs).result.1 = url ∧
    joinP tmpDir env.fetchedName ∉
      (downloadVideo env maxAttempts tmpDir url outFile s e fs).fs.files := by
  rw [downloadVideo_success tmpDir url outFile s e fs hf ht]
  refine ⟨rfl, rfl, rfl, ?_⟩
  intro hmem
  rcases List.mem_filter.mp hmem with ⟨_, hdec⟩
  exact (of_decide_eq_true hdec) rfl

theorem c5_witness :
    fetchLoop (fun _ => none) 5 = (none, 1) ∧
    joinP ['t'] ['f'] ∉
      (downloadVideo ⟨fun _ => none, ['f'], none, true⟩ 5 ['t'] ['u'] ['o'] 0 5
        ⟨[], []⟩).fs.files :=
  ⟨by decide,
   (@c5_transcode_success ⟨fun _ => none, ['f'], none, true⟩ 5 ['t'] ['u'] ['o'] 0 5
     ⟨[], []⟩ 1 (by decide) (by decide)).2.2.2⟩

/-- C6 counterexample: the claim says every task's result is logged
immediately, whether the task succeeded or failed.  But `_log` is reached
only on the transcode-success path of `_download_video`: here a single
task whose every fetch fails yields a (failed) result in the collected
status list while the streaming log stays empty. -/
theorem c6_counterexample :
    (videoDownloaderCall 1 3 ['t'] (fun _ => ⟨fun _ => some ['b', 'a', 'd'], ['f'], none, true⟩)
        [(['u'], ['o'], 0, 5)] ⟨[], []⟩).results = [(['u'], false, ['b', 'a', 'd'])] ∧
    (videoDownloaderCall 1 3 ['t'] (fun _ => ⟨fun _ => some ['b', 'a', 'd'], ['f'], none, true⟩)
        [(['u'], ['o'], 0, 5)] ⟨[], []⟩).logs = [] :=
  ⟨by decide, by decide⟩

/-- C6 amended: a `_download_video` call emits exactly one immediate log
line when it reaches the end of the transcode phase (fetch loop succeeded
and `ffmpeg` exited 0), namely its own result triple with message
`'Downloaded'` — logged whether the final existence check succeeded or
failed; a call that fails in the fetch phase or in the transcode phase
emits no immediate log line, its failure appearing only in the final
aggregated status printing. -/
theorem c6_amended_streaming_logs (env : WorkerEnv) (maxAttempts : Nat)
    (tmpDir url outFile : Str) (s e : Int) (fs : FS) :
    (downloadVideo env maxAttempts tmpDir url outFile s e fs).logs =
      (if (fetchLoop env.fetchResult maxAttempts).1 = none ∧ env.transcodeResult = none
       then [(downloadVideo env maxAttempts tmpDir url outFile s e fs).result] else []) := by
  cases hfl : fetchLoop env.fetchResult maxAttempts with
  | mk o n =>
    cases o with
    | some err =>
        rw [downloadVideo_fetchFail tmpDir url outFile s e fs hfl]
        rw [if_neg (fun hc => Option.noConfusion hc.1)]
    | none =>
        cases ht : env.transcodeResult with
        | some err =>
            rw [downloadVideo_transcodeFail tmpDir url outFile s e fs hfl ht]
            rw [if_neg (fun hc => Option.noConfusion hc.2)]
        | none =>
            rw [downloadVideo_success tmpDir url outFile s e fs hfl ht]
            rw [if_pos ⟨rfl, rfl⟩]

/-- C7: merging dataset records, a video name already present keeps its
first record — the merged dict maps each name to the value of the first
record deriving it — and the reported duplicate count is exactly the
number of extra occurrences (records beyond the first for their name). -/
theorem c7_collect_dedup (rs : List SrcRecord) (name : Str) :
    lookupA (collect_videos rs).1 name =
      (firstRecordWith name rs).map (fun r => (r.url, r.seg0, r.seg1)) ∧
    (collect_videos rs).2 = rs.length - (collect_videos rs).1.length := by
  constructor
  · have h := collectAux_lookup name rs [] 0
    unfold collect_videos
    rw [h]
    rfl
  · have h := collectAux_size rs [] 0
    simp only [List.length_nil] at h
    unfold collect_videos
    omega

/-- C8: if the output directory listing already contains
`{name}.{extension}` as a regular file, `prepare_tasks` produces no task
whose destination is `{output_dir}/{name}.{extension}`. -/
theorem c8_prepare_skips_existing (srcs : List (Str × Str × Int × Int)) (dir : Str)
    (listing : List Str) (isfile : Str → Bool) (ext : Str) (name : Str)
    (hmem : (name ++ '.' :: ext) ∈ listing)
    (hfile : isfile (joinP dir (name ++ '.' :: ext)) = true) :
    ∀ res, prepare_tasks srcs dir listing isfile ext = Except.ok res →
      ∀ t ∈ res, t.2.1 ≠ joinP dir (name ++ '.' :: ext) := by
  intro res hok t ht heq
  have hok' : mkTasks srcs ext
      ((srcs.map (fun v => joinP dir (v.1 ++ '.' :: ext))).eraseDups.filter
        (fun q => decide (q ∉ (listing.filter
          (fun f => isfile (joinP dir f) && isSfx ext f)).map (fun f => joinP dir f)))) =
      Except.ok res := hok
  have hend : isSfx ext (name ++ '.' :: ext) = true := by
    have h1 := isSfx_append ext (name ++ ['.'])
    have h2 : (name ++ ['.']) ++ ext = name ++ '.' :: ext := by
      rw [List.append_assoc]
      rfl
    rw [h2] at h1
    exact h1
  have htarget : joinP dir (name ++ '.' :: ext) ∈
      (listing.filter (fun f => isfile (joinP dir f) && isSfx ext f)).map
        (fun f => joinP dir f) := by
    refine List.mem_map.mpr ⟨name ++ '.' :: ext, ?_, rfl⟩
    refine List.mem_filter.mpr ⟨hmem, ?_⟩
    rw [hfile, hend]
    rfl
  have hcand := mkTasks_path_mem srcs ext _ res hok' t ht
  rcases List.mem_filter.mp hcand with ⟨_, hdec⟩
  have hnotin := of_decide_eq_true hdec
  rw [heq] at hnotin
  exact hnotin htarget

theorem c8_witness :
    ((['a'] : Str) ++ '.' :: ['m']) ∈ ([['a', '.', 'm']] : List Str) ∧
    ∀ res, prepare_tasks [(['a'], ['u'], 0, 5)] ['o'] [['a', '.', 'm']] (fun _ => true) ['m'] =
        Except.ok res →
      ∀ t ∈ res, t.2.1 ≠ joinP ['o'] (['a'] ++ '.' :: ['m']) :=
  ⟨by decide,
   c8_prepare_skips_existing [(['a'], ['u'], 0, 5)] ['o'] [['a', '.', 'm']] (fun _ => true)
     ['m'] ['a'] (by decide) (by decide)⟩

/-- C9 counterexample: with extension `mp4` and identifier `a.mp4`, the
substring `.mp4` occurs in the identifier only as its final suffix, yet
the round trip through `{output_dir}/{identifier}.{extension}` and
`prepare_tasks`' name recovery (`replace`, which deletes every
occurrence) yields `a`, not the identifier — so the claimed "identity
exactly for identifiers in which `.{extension}` occurs only as the final
suffix" is false as stated. -/
theorem c9_counterexample :
    (∀ a b : Str, ['a', '.', 'm', 'p', '4'] = a ++ ('.' :: ['m', 'p', '4']) ++ b → b = []) ∧
    recoverName ['m', 'p', '4']
        (joinP ['o'] (['a', '.', 'm', 'p', '4'] ++ '.' :: ['m', 'p', '4'])) ≠
      ['a', '.', 'm', 'p', '4'] := by
  constructor
  · intro a b hab
    cases a with
    | nil =>
        have hh := congrArg List.head? hab
        simp at hh
    | cons a0 a' =>
        have hlen := congrArg List.length hab
        simp only [List.length_append, List.length_cons, List.length_nil] at hlen
        exact List.length_eq_zero.mp (by omega)
  · decide

/-- C9 amended: for an extension containing no dot (and names free of the
path separator), the round trip identifier to
`{output_dir}/{identifier}.{extension}` and back through
`prepare_tasks`' name recovery is the identity exactly for identifiers in
which `.{extension}` does not occur at all; any identifier containing
`.{extension}` — internally or as a suffix — is strictly shortened by the
reverse mapping. -/
theorem c9_amended_roundtrip (dir id ext : Str) (hdot : '.' ∉ ext) (hid : '/' ∉ id)
    (hext : '/' ∉ ext) :
    recoverName ext (joinP dir (id ++ '.' :: ext)) = id ↔
      occursIn ('.' :: ext) id = false := by
  have hslash : '/' ∉ id ++ '.' :: ext := by
    intro hm
    rcases List.mem_append.mp hm with h1 | h2
    · exact hid h1
    · rcases List.mem_cons.mp h2 with h3 | h4
      · exact absurd h3 (by decide)
      · exact hext h4
  have hbase : basenameL (joinP dir (id ++ '.' :: ext)) = id ++ '.' :: ext :=
    basenameL_joinP dir hslash
  unfold recoverName replaceDel
  rw [hbase]
  constructor
  · intro hrep
    by_contra hocc
    have hocc' : occursIn ('.' :: ext) id = true := by
      cases hx : occursIn ('.' :: ext) id
      · exact absurd hx hocc
      · rfl
    have hshr := replaceDelAux_shrink '.' ext (id ++ '.' :: ext).length id
      (by simp only [List.length_append, List.length_cons]; omega) hocc'
    rw [hrep] at hshr
    omega
  · intro hocc
    exact replaceDelAux_restore hdot (id ++ '.' :: ext).length id
      (by simp only [List.length_append, List.length_cons]; omega) hocc

theorem c9_witness :
    recoverName ['m'] (joinP ['o'] (['a', 'b'] ++ '.' :: ['m'])) = ['a', 'b'] :=
  (c9_amended_roundtrip ['o'] ['a', 'b'] ['m'] (by decide) (by decide) (by decide)).mpr
    (by decide)

/-- C10: the video-name derivation of `collect_videos` is total — the
split of the url at `?v=` is never the empty list, so taking its last
element is well defined — a url containing no `?v=` marker derives to the
whole url, and a url of the form `a ++ '?v=' ++ b` with no marker in `b`
derives to `b`, the part after the last occurrence of the marker. -/
theorem c10_video_name_total (url : Str) :
    pySplit '?' ['v', '='] url ≠ [] ∧
    (occursIn vMarker url = false → video_name_of url = url) ∧
    (∀ a b : Str, url = a ++ vMarker ++ b → occursIn vMarker b = false →
      video_name_of url = b) := by
  refine ⟨pySplit_ne_nil '?' ['v', '='] url, fun h => video_name_no_marker h, ?_⟩
  intro a b hurl hocc
  rw [hurl]
  exact video_name_after_marker hocc

theorem c10_witness :
    video_name_of ['a', 'b'] = ['a', 'b'] ∧ video_name_of ['x', '?', 'v', '=', 'z'] = ['z'] :=
  ⟨(c10_video_name_total ['a', 'b']).2.1 (by decide),
   (c10_video_name_total ['x', '?', 'v', '=', 'z']).2.2 ['x'] ['z'] (by decide) (by decide)⟩
